import Mathlib

/-!
Verification of the VoiceLayer segmentation-and-curation core.

This file gives a shallow embedding of the two algorithmic components of the
repository:

* the Interval Shaper of `src/cli/extract.py` — `_merge_segments`,
  `_split_segment` and the shaping loop of `segment_with_vad` (lines 234-251);
* the Clip Curator of `src/cli/clone.py` — the scoring, filtering, stable
  descending sort and greedy budgeted selection of `select_best_clips`.

Times and energies are modelled as rationals (the Python code performs only
field arithmetic, `abs`, `min` and comparisons on them).  The Python dict
`{"start": .., "end": ..}` becomes the structure `Iv`; the field `end` is
spelled `stop` because `end` is a Lean keyword.
-/

namespace VoiceLayer

/-- Speech interval `{"start": s, "end": e}` (seconds).  The Python key
`end` is named `stop` here, `end` being a Lean keyword. -/
structure Iv where
  start : ℚ
  stop : ℚ
deriving DecidableEq, Repr

/-- Duration `seg["end"] - seg["start"]` of an interval. -/
def Iv.duration (s : Iv) : ℚ := s.stop - s.start

/-- Loop body of `_merge_segments` (extract.py lines 268-276), with the
accumulator `prev` (`merged[-1]` in the source) made explicit: extend the
accumulator when `gap <= gap_threshold_s and combined_duration <=
max_duration_s`, otherwise emit it and start a new accumulator at `seg`. -/
def mergeAux (gapThresholdS maxDurationS : ℚ) (prev : Iv) : List Iv → List Iv
  | [] => [prev]
  | seg :: rest =>
    if seg.start - prev.stop ≤ gapThresholdS ∧ seg.stop - prev.start ≤ maxDurationS then
      mergeAux gapThresholdS maxDurationS ⟨prev.start, seg.stop⟩ rest
    else
      prev :: mergeAux gapThresholdS maxDurationS seg rest

/-- Embedding of `_merge_segments` (extract.py lines 257-278): merge speech
segments separated by gaps smaller than the threshold, capping the merged
duration at `max_duration_s`.  Empty input gives an empty output. -/
def mergeSegments (timestamps : List Iv) (gapThresholdS maxDurationS : ℚ) : List Iv :=
  match timestamps with
  | [] => []
  | first :: rest => mergeAux gapThresholdS maxDurationS first rest

/-- One iteration budget for the `while start < end` loop of `_split_segment`:
each iteration advances `start` by `min(max_s, end - start)`, so
`⌈(end - start) / max_s⌉` iterations suffice when `max_s > 0` (for
`max_s ≤ 0` the Python loop would not terminate; valid configurations have
`max_s ≥ min_s > 0`). -/
def splitFuel (seg : Iv) (maxS : ℚ) : Nat :=
  if maxS ≤ 0 then 0 else (Int.ceil ((seg.stop - seg.start) / maxS)).toNat + 1

/-- Body of the `while start < end` loop of `_split_segment` (extract.py
lines 291-295), fuelled by the iteration budget: `chunk_end = min(start +
max_s, end)`; emit `{start, chunk_end}` when `chunk_end - start >= min_s`;
advance `start = chunk_end`. -/
def splitGo (maxS minS : ℚ) : Nat → ℚ → ℚ → List Iv
  | 0, _, _ => []
  | fuel + 1, start, stop =>
    if start < stop then
      let chunkEnd := min (start + maxS) stop
      (if minS ≤ chunkEnd - start then [Iv.mk start chunkEnd] else []) ++
        splitGo maxS minS fuel chunkEnd stop
    else []

/-- Embedding of `_split_segment` (extract.py lines 281-297): split a segment
longer than `max_s` into valid sub-segments, dropping a trailing remainder
shorter than `min_s`. -/
def splitSegment (seg : Iv) (maxS minS : ℚ) : List Iv :=
  splitGo maxS minS (splitFuel seg maxS) seg.start seg.stop

/-- Per-run body of the shaping loop of `segment_with_vad` (extract.py lines
234-251): a merged run shorter than `min_discard_s` is discarded, one longer
than `max_segment_s` is split by `_split_segment`, any other run is emitted
as is. -/
def shapeRun (maxSegmentS minDiscardS : ℚ) (seg : Iv) : List Iv :=
  if seg.duration < minDiscardS then []
  else if maxSegmentS < seg.duration then splitSegment seg maxSegmentS minDiscardS
  else [seg]

/-- The spec's `shape(intervals, gap_threshold, max_duration, min_duration)`
contract, realized in `segment_with_vad` as `_merge_segments` followed by the
per-run discard/split/emit loop. -/
def shape (intervals : List Iv) (gapThresholdS maxDurationS minDurationS : ℚ) : List Iv :=
  (mergeSegments intervals gapThresholdS maxDurationS).flatMap
    (shapeRun maxDurationS minDurationS)

/-- Boundary-producing core of `segment_with_vad` (extract.py lines 178-254),
taking the raw VAD timestamps as input (speech detection is an external
collaborator).  The result pairs each emitted interval with its output-file
tag: `(i, none)` for `segment_{i}.wav`, `(i, some j)` for
`segment_{i}_{j}.wav`.  The `min_segment_s` parameter is accepted, as in the
source signature, where it is used only in a progress message. -/
def segmentWithVad (speechTimestamps : List Iv)
    (minSegmentS maxSegmentS mergeGapMs minDiscardS : ℚ) :
    List ((Nat × Option Nat) × Iv) :=
  if speechTimestamps = [] then []
  else
    let merged := mergeSegments speechTimestamps (mergeGapMs / 1000) maxSegmentS
    merged.enum.flatMap fun p =>
      let i := p.1
      let seg := p.2
      let duration := seg.duration
      if duration < minDiscardS then []
      else if maxSegmentS < duration then
        (splitSegment seg maxSegmentS minDiscardS).enum.map fun q => ((i, some q.1), q.2)
      else [((i, none), seg)]

/-! ## Clip Curator (clone.py) -/

/-- Raw per-file metrics gathered by `select_best_clips` before filtering:
`get_wav_duration` and `get_wav_rms` of one sample (clone.py lines 137-141).
The opaque file path is not modelled. -/
structure Clip where
  duration : ℚ
  rms : ℚ
deriving DecidableEq, Repr

/-- Candidate record built by `select_best_clips` (clone.py lines 148-153),
without the opaque `path` field. -/
structure Candidate where
  duration : ℚ
  rms : ℚ
  score : ℚ
deriving DecidableEq, Repr

/-- Module constant `TARGET_TOTAL_DURATION = 18.5` of clone.py. -/
def TARGET_TOTAL_DURATION : ℚ := 18.5

/-- Module constant `TARGET_CLIP_COUNT = 3` of clone.py. -/
def TARGET_CLIP_COUNT : Nat := 3

/-- Module constant `MIN_CLIP_DURATION = 3.0` of clone.py. -/
def MIN_CLIP_DURATION : ℚ := 3

/-- Module constant `MAX_CLIP_DURATION = 12.0` of clone.py. -/
def MAX_CLIP_DURATION : ℚ := 12

/-- Scoring of one candidate (clone.py lines 143-146):
`duration_score = 1.0 - abs(duration - 6.0) / 6.0`,
`rms_score = min(rms / 3000.0, 1.0)`,
`score = duration_score * 0.4 + rms_score * 0.6`. -/
def scoreClip (duration rms : ℚ) : ℚ :=
  (1 - |duration - 6| / 6) * (4 / 10) + min (rms / 3000) 1 * (6 / 10)

/-- Filtering and scoring loop of `select_best_clips` (clone.py lines
136-153): clips outside the `[MIN_CLIP_DURATION, MAX_CLIP_DURATION]` band are
skipped, the rest become scored candidates in discovery order. -/
def buildCandidates (clips : List Clip) : List Candidate :=
  clips.filterMap fun c =>
    if c.duration < MIN_CLIP_DURATION ∨ MAX_CLIP_DURATION < c.duration then none
    else some ⟨c.duration, c.rms, scoreClip c.duration c.rms⟩

/-- Stable descending insertion: `c` is placed before the first candidate of
strictly smaller score, so earlier candidates win ties. -/
def insertByScore (c : Candidate) : List Candidate → List Candidate
  | [] => [c]
  | d :: rest => if d.score < c.score then c :: d :: rest else d :: insertByScore c rest

/-- Stable sort by score descending, modelling
`candidates.sort(key=lambda c: c["score"], reverse=True)` (clone.py line
159); Python's sort is stable, and a stable descending sort is extensionally
unique, so insertion sort is a faithful model. -/
def sortByScoreDesc : List Candidate → List Candidate
  | [] => []
  | c :: rest => insertByScore c (sortByScoreDesc rest)

/-- Greedy budgeted scan of `select_best_clips` (clone.py lines 162-173) with
the loop state (`selected`, `total_duration`) explicit and the module
constants generalized to parameters: stop once `len(selected) >=
targetClipCount`; skip a candidate that would push the total past
`targetTotalDuration + slackS`; otherwise accept it. -/
def selectGo (targetTotalDuration slackS : ℚ) (targetClipCount : Nat) :
    List Candidate → List Candidate → ℚ → List Candidate × ℚ
  | [], selected, totalDuration => (selected, totalDuration)
  | c :: rest, selected, totalDuration =>
    if targetClipCount ≤ selected.length then (selected, totalDuration)
    else if targetTotalDuration + slackS < totalDuration + c.duration then
      selectGo targetTotalDuration slackS targetClipCount rest selected totalDuration
    else
      selectGo targetTotalDuration slackS targetClipCount rest
        (selected ++ [c]) (totalDuration + c.duration)

/-- Embedding of `select_best_clips` (clone.py lines 123-173), returning the
selected candidates together with the loop's final `total_duration` (the
spec's `Selection`).  The source instantiates the greedy scan at
`TARGET_TOTAL_DURATION = 18.5`, slack `2.0` and `TARGET_CLIP_COUNT = 3`. -/
def selectBestClips (clips : List Clip) : List Candidate × ℚ :=
  let candidates := buildCandidates clips
  if candidates = [] then ([], 0)
  else
    selectGo TARGET_TOTAL_DURATION 2 TARGET_CLIP_COUNT (sortByScoreDesc candidates) [] 0

/-! ## Basic facts about the split pass -/

/-- Every interval emitted by the split loop passes the `chunk_end - start >=
min_s` guard, and its right endpoint is exactly `min(start + max_s, end)`. -/
theorem splitGo_mem {maxS minS stop : ℚ} :
    ∀ {fuel : Nat} {start : ℚ} {p : Iv}, p ∈ splitGo maxS minS fuel start stop →
      minS ≤ p.stop - p.start ∧ p.stop = min (p.start + maxS) stop := by
  intro fuel
  induction fuel with
  | zero => intro start p h; simp [splitGo] at h
  | succ n ih =>
    intro start p h
    simp only [splitGo] at h
    by_cases hlt : start < stop
    · rw [if_pos hlt] at h
      rcases List.mem_append.mp h with h | h
      · by_cases hmin : minS ≤ min (start + maxS) stop - start
        · rw [if_pos hmin, List.mem_singleton] at h
          subst h
          exact ⟨hmin, rfl⟩
        · rw [if_neg hmin] at h
          exact absurd h (List.not_mem_nil p)
      · exact ih h
    · rw [if_neg hlt] at h
      exact absurd h (List.not_mem_nil p)

/-- Every sub-segment emitted by `_split_segment` has duration between
`min_s` and `max_s`. -/
theorem mem_splitSegment {seg : Iv} {maxS minS : ℚ} {p : Iv}
    (h : p ∈ splitSegment seg maxS minS) :
    minS ≤ p.duration ∧ p.duration ≤ maxS := by
  obtain ⟨h1, h2⟩ := splitGo_mem h
  refine ⟨h1, ?_⟩
  have : p.stop ≤ p.start + maxS := h2 ▸ min_le_left _ _
  simpa [Iv.duration] using by linarith

/-- Every interval emitted for one merged run by the shaping loop of
`segment_with_vad` has duration between `min_discard_s` and
`max_segment_s`. -/
theorem mem_shapeRun {maxD minD : ℚ} {seg p : Iv}
    (h : p ∈ shapeRun maxD minD seg) :
    minD ≤ p.duration ∧ p.duration ≤ maxD := by
  unfold shapeRun at h
  by_cases h1 : seg.duration < minD
  · rw [if_pos h1] at h
    exact absurd h (List.not_mem_nil p)
  · rw [if_neg h1] at h
    by_cases h2 : maxD < seg.duration
    · rw [if_pos h2] at h
      exact mem_splitSegment h
    · rw [if_neg h2, List.mem_singleton] at h
      subst h
      exact ⟨not_lt.mp h1, not_lt.mp h2⟩

/-- C1.  Split boundedness: for every sorted input interval list and valid
configuration (`min_duration > 0`, `max_duration ≥ min_duration`,
`gap_threshold ≥ 0`), every segment emitted by the shaping pass (merge, then
split of over-long runs, then filter) has
`min_duration ≤ duration ≤ max_duration`; segments violating the lower bound
are dropped, not emitted. -/
theorem shape_split_boundedness (intervals : List Iv)
    (gapThresholdS maxDurationS minDurationS : ℚ)
    (hsorted : intervals.Pairwise fun a b => a.start ≤ b.start)
    (hmin : 0 < minDurationS) (hmm : minDurationS ≤ maxDurationS)
    (hgap : 0 ≤ gapThresholdS) :
    ∀ s ∈ shape intervals gapThresholdS maxDurationS minDurationS,
      minDurationS ≤ s.duration ∧ s.duration ≤ maxDurationS := by
  intro s hs
  rw [shape, List.mem_flatMap] at hs
  obtain ⟨run, _, hmem⟩ := hs
  exact mem_shapeRun hmem

/-- The spec's worked example `[{0,2},{2.3,5},{10,11},{11.2,13}]`, used to
instantiate hypotheses of several theorems below. -/
def exampleIntervals : List Iv :=
  [Iv.mk 0 2, Iv.mk (23/10) 5, Iv.mk 10 11, Iv.mk (56/5) 13]

/-- The shaping pass on the spec's worked example. -/
theorem shape_example :
    shape exampleIntervals (1/2) 30 3 = [Iv.mk 0 5, Iv.mk 10 13] := by
  norm_num [exampleIntervals, shape, mergeSegments, mergeAux, shapeRun, Iv.duration]

/-- Witness for C1 at the spec's worked example. -/
theorem shape_split_boundedness_witness :
    (3:ℚ) ≤ (Iv.mk 0 5).duration ∧ (Iv.mk 0 5).duration ≤ 30 :=
  shape_split_boundedness exampleIntervals (1/2) 30 3
    (by norm_num [exampleIntervals, List.pairwise_cons]) (by norm_num) (by norm_num)
    (by norm_num) (Iv.mk 0 5) (by rw [shape_example]; exact List.mem_cons_self _ _)

/-- C5.  Split pass algorithm: every emitted sub-segment passes the
`chunk_end - start ≥ min_duration` guard and has `chunk_end = min(start +
max_duration, run.end)`; the run `{0,40}` with `max_duration = 30`,
`min_duration = 6` yields exactly `[{0,30},{30,40}]`; and a trailing
remainder shorter than `min_duration` is dropped, as on `{0,32}` with
`max_duration = 30`, `min_duration = 3`, whose tail `{30,32}` (duration 2)
is not emitted, not padded and not merged backward. -/
theorem split_pass_walk :
    (∀ (seg : Iv) (maxS minS : ℚ), ∀ p ∈ splitSegment seg maxS minS,
        minS ≤ p.stop - p.start ∧ p.stop = min (p.start + maxS) seg.stop) ∧
    splitSegment (Iv.mk 0 40) 30 6 = [Iv.mk 0 30, Iv.mk 30 40] ∧
    splitSegment (Iv.mk 0 32) 30 3 = [Iv.mk 0 30] := by
  refine ⟨fun seg maxS minS p hp => splitGo_mem hp, ?_, ?_⟩
  · have h : (⌈(4:ℚ) / 3⌉ : ℤ) = 2 := by rw [Int.ceil_eq_iff] <;> norm_num
    norm_num [splitSegment, splitFuel, h, splitGo]
  · have h : (⌈(16:ℚ) / 15⌉ : ℤ) = 2 := by rw [Int.ceil_eq_iff] <;> norm_num
    norm_num [splitSegment, splitFuel, h, splitGo]

/-- Witness for C5's guarded-emission clause, at the `{0,40}` example. -/
theorem split_pass_walk_witness :
    (6:ℚ) ≤ (Iv.mk 0 30).stop - (Iv.mk 0 30).start ∧
      (Iv.mk 0 30).stop = min ((Iv.mk 0 30).start + 30) (Iv.mk 0 40).stop :=
  split_pass_walk.1 (Iv.mk 0 40) 30 6 (Iv.mk 0 30)
    (by rw [split_pass_walk.2.1]; exact List.mem_cons_self _ _)

/-- A member of the merge output whose duration exceeds the cap is the
accumulator the recursion started from, or one of the remaining raw
intervals: the accumulator is only ever extended under the
`combined_duration <= max_duration_s` check. -/
theorem mergeAux_mem_overlong {gapThresholdS maxDurationS : ℚ} :
    ∀ {ts : List Iv} {acc R : Iv},
      R ∈ mergeAux gapThresholdS maxDurationS acc ts →
      maxDurationS < R.duration → R = acc ∨ R ∈ ts := by
  intro ts
  induction ts with
  | nil =>
    intro acc R hR _
    rw [mergeAux, List.mem_singleton] at hR
    exact Or.inl hR
  | cons seg rest ih =>
    intro acc R hR hdur
    rw [mergeAux] at hR
    by_cases hc : seg.start - acc.stop ≤ gapThresholdS ∧ seg.stop - acc.start ≤ maxDurationS
    · rw [if_pos hc] at hR
      rcases ih hR hdur with h | h
      · have hd : maxDurationS < seg.stop - acc.start := by
          simpa [Iv.duration, h] using hdur
        exact absurd hc.2 (not_le.mpr hd)
      · exact Or.inr (List.mem_cons_of_mem _ h)
    · rw [if_neg hc] at hR
      rcases List.mem_cons.mp hR with h | h
      · exact Or.inl h
      · rcases ih h hdur with h' | h'
        · exact Or.inr (h' ▸ List.mem_cons_self _ _)
        · exact Or.inr (List.mem_cons_of_mem _ h')

/-- C10.  Every merged run produced by the merge pass whose duration exceeds
`max_duration_s` is exactly one of the raw input intervals: over-long runs
can arise only from individual VAD intervals that already exceeded the cap,
never from merging. -/
theorem overlong_run_is_raw (timestamps : List Iv) (gapThresholdS maxDurationS : ℚ) :
    ∀ R ∈ mergeSegments timestamps gapThresholdS maxDurationS,
      maxDurationS < R.duration → R ∈ timestamps := by
  intro R hR hdur
  match timestamps, hR with
  | first :: rest, hR =>
    rcases mergeAux_mem_overlong hR hdur with h | h
    · exact h ▸ List.mem_cons_self _ _
    · exact List.mem_cons_of_mem _ h

/-- Witness for C10: a single raw interval of duration 40 survives the merge
pass unchanged and exceeds the cap 30. -/
theorem overlong_run_is_raw_witness : Iv.mk 0 40 ∈ [Iv.mk 0 40] :=
  overlong_run_is_raw [Iv.mk 0 40] 0 30 (Iv.mk 0 40)
    (by simp [mergeSegments, mergeAux]) (by norm_num [Iv.duration])

/-- The second component of an entry of `enumFrom` is a member of the
underlying list. -/
theorem snd_mem_of_mem_enumFrom {α : Type} :
    ∀ {l : List α} {n : Nat} {p : Nat × α}, p ∈ l.enumFrom n → p.2 ∈ l := by
  intro l
  induction l with
  | nil => intro n p h; simp at h
  | cons a t ih =>
    intro n p h
    rw [List.enumFrom, List.mem_cons] at h
    rcases h with h | h
    · subst h
      exact List.mem_cons_self _ _
    · exact List.mem_cons_of_mem _ (ih h)

/-- C9.  The `min_segment_s` parameter of `segment_with_vad` has no effect:
two runs on the same VAD timestamps and configuration that differ only in
`min_segment_s` produce identical segment boundaries and output-file tags,
and the effective lower duration bound of every emitted segment is
`min_discard_s`. -/
theorem min_segment_no_effect (speechTimestamps : List Iv)
    (maxSegmentS mergeGapMs minDiscardS m1 m2 : ℚ) :
    segmentWithVad speechTimestamps m1 maxSegmentS mergeGapMs minDiscardS =
      segmentWithVad speechTimestamps m2 maxSegmentS mergeGapMs minDiscardS ∧
    ∀ p ∈ segmentWithVad speechTimestamps m1 maxSegmentS mergeGapMs minDiscardS,
      minDiscardS ≤ p.2.duration := by
  refine ⟨rfl, ?_⟩
  intro p hp
  rw [segmentWithVad] at hp
  by_cases hnil : speechTimestamps = []
  · rw [if_pos hnil] at hp
    exact absurd hp (List.not_mem_nil p)
  · rw [if_neg hnil] at hp
    simp only [List.mem_flatMap] at hp
    obtain ⟨q, _, hbody⟩ := hp
    by_cases h1 : q.2.duration < minDiscardS
    · rw [if_pos h1] at hbody
      exact absurd hbody (List.not_mem_nil p)
    · rw [if_neg h1] at hbody
      by_cases h2 : maxSegmentS < q.2.duration
      · rw [if_pos h2] at hbody
        obtain ⟨r, hr, rfl⟩ := List.mem_map.mp hbody
        have hmem : r.2 ∈ splitSegment q.2 maxSegmentS minDiscardS :=
          snd_mem_of_mem_enumFrom (by simpa [List.enum] using hr)
        exact (mem_splitSegment hmem).1
      · rw [if_neg h2, List.mem_singleton] at hbody
        subst hbody
        exact not_lt.mp h1

/-- Witness for C9's lower-bound clause at a one-interval input. -/
theorem min_segment_no_effect_witness :
    (3:ℚ) ≤ ((((0:Nat), (none : Option Nat)), Iv.mk 0 5) : (Nat × Option Nat) × Iv).2.duration :=
  (min_segment_no_effect [Iv.mk 0 5] 30 500 3 6 99).2 ((0, none), Iv.mk 0 5)
    (by norm_num [segmentWithVad, mergeSegments, mergeAux, Iv.duration, List.enum])

/-! ## Clip Curator claims -/

/-- The running total of the greedy scan never exceeds the budget it starts
under: a candidate is accepted only after the
`total_duration + candidate.duration > target + slack` check failed. -/
theorem selectGo_total_le {targetTotalDuration slackS : ℚ} {targetClipCount : Nat} :
    ∀ {cands selected : List Candidate} {totalDuration : ℚ},
      totalDuration ≤ targetTotalDuration + slackS →
      (selectGo targetTotalDuration slackS targetClipCount cands selected totalDuration).2 ≤
        targetTotalDuration + slackS := by
  intro cands
  induction cands with
  | nil => intro selected total h; exact h
  | cons c rest ih =>
    intro selected total h
    rw [selectGo]
    by_cases h1 : targetClipCount ≤ selected.length
    · rw [if_pos h1]; exact h
    · rw [if_neg h1]
      by_cases h2 : targetTotalDuration + slackS < total + c.duration
      · rw [if_pos h2]; exact ih h
      · rw [if_neg h2]; exact ih (not_lt.mp h2)

/-- The greedy scan never grows the selection past the clip-count cap: the
scan stops before accepting once `len(selected) >= targetClipCount`. -/
theorem selectGo_length_le {targetTotalDuration slackS : ℚ} {targetClipCount : Nat} :
    ∀ {cands selected : List Candidate} {totalDuration : ℚ},
      selected.length ≤ targetClipCount →
      ((selectGo targetTotalDuration slackS targetClipCount cands selected
          totalDuration).1).length ≤ targetClipCount := by
  intro cands
  induction cands with
  | nil => intro selected total h; exact h
  | cons c rest ih =>
    intro selected total h
    rw [selectGo]
    by_cases h1 : targetClipCount ≤ selected.length
    · rw [if_pos h1]; exact h
    · rw [if_neg h1]
      by_cases h2 : targetTotalDuration + slackS < total + c.duration
      · rw [if_pos h2]; exact ih h
      · rw [if_neg h2]
        exact ih (by simpa using Nat.succ_le_of_lt (not_le.mp h1))

/-- C4.  Selection budget: for every candidate pool and valid configuration
the greedy selection's total duration is at most `target_duration + slack`
(so with `slack = 0` it is at most `target_duration`), and the code's
instantiation at target 18.5 s and slack 2.0 s keeps every selection's total
at or below 20.5 s. -/
theorem selection_budget :
    (∀ (targetDuration slackS : ℚ) (maxCount : Nat) (cands : List Candidate),
        0 < targetDuration → 0 ≤ slackS →
        (selectGo targetDuration slackS maxCount cands [] 0).2 ≤ targetDuration + slackS) ∧
    ∀ clips : List Clip, (selectBestClips clips).2 ≤ 20.5 := by
  constructor
  · intro t s m cands ht hs
    exact selectGo_total_le (by linarith)
  · intro clips
    rw [selectBestClips]
    by_cases h : buildCandidates clips = []
    · rw [if_pos h]; norm_num
    · rw [if_neg h]
      have hle : (selectGo TARGET_TOTAL_DURATION 2 TARGET_CLIP_COUNT
              (sortByScoreDesc (buildCandidates clips)) [] 0).2 ≤
            TARGET_TOTAL_DURATION + 2 :=
        selectGo_total_le (by norm_num [TARGET_TOTAL_DURATION])
      calc (selectGo TARGET_TOTAL_DURATION 2 TARGET_CLIP_COUNT
              (sortByScoreDesc (buildCandidates clips)) [] 0).2
          ≤ TARGET_TOTAL_DURATION + 2 := hle
        _ ≤ 20.5 := by norm_num [TARGET_TOTAL_DURATION]

/-- Witness for C4's parametric budget bound. -/
theorem selection_budget_witness :
    (selectGo (37/2) 2 3 [Candidate.mk 21 0 0, Candidate.mk 5 0 0] [] 0).2 ≤ 37/2 + 2 :=
  selection_budget.1 (37/2) 2 3 [Candidate.mk 21 0 0, Candidate.mk 5 0 0]
    (by norm_num) (by norm_num)

/-- C6.  Greedy scan semantics: the scan stops entirely once the selection
has `max_count` elements; a candidate that would overflow the budget is
skipped without terminating the scan, so a later, shorter candidate is still
accepted (concretely, after the 21-second candidate is skipped the 5-second
one is taken); and the selection never holds more than `max_count`
candidates, in particular `select_best_clips` returns at most
`TARGET_CLIP_COUNT = 3` clips. -/
theorem greedy_scan_semantics :
    (∀ (t s : ℚ) (m : Nat) (c : Candidate) (rest selected : List Candidate) (total : ℚ),
        m ≤ selected.length →
        selectGo t s m (c :: rest) selected total = (selected, total)) ∧
    selectGo (37/2) 2 3 [Candidate.mk 21 0 0, Candidate.mk 5 0 0] [] 0 =
      ([Candidate.mk 5 0 0], 5) ∧
    (∀ (t s : ℚ) (m : Nat) (cands : List Candidate),
        ((selectGo t s m cands [] 0).1).length ≤ m) ∧
    ∀ clips : List Clip, ((selectBestClips clips).1).length ≤ TARGET_CLIP_COUNT := by
  refine ⟨?_, ?_, ?_, ?_⟩
  · intro t s m c rest selected total h
    rw [selectGo, if_pos h]
  · norm_num [selectGo]
  · intro t s m cands
    exact selectGo_length_le (Nat.zero_le m)
  · intro clips
    rw [selectBestClips]
    by_cases h : buildCandidates clips = []
    · rw [if_pos h]; exact Nat.zero_le _
    · rw [if_neg h]
      exact selectGo_length_le (Nat.zero_le _)

/-- Witness for C6's stop clause: with `max_count = 0` the scan returns the
empty selection at once. -/
theorem greedy_scan_semantics_witness :
    selectGo 1 0 0 [Candidate.mk 1 0 0] [] 0 = ([], 0) :=
  greedy_scan_semantics.1 1 0 0 (Candidate.mk 1 0 0) [] [] 0 (Nat.le_refl 0)

/-- The candidate pool of the spec's selection example. -/
def exampleClips : List Clip := [Clip.mk 6 3000, Clip.mk 6 100, Clip.mk 8 2500]

/-- C7.  Scoring and worked example: the code's score is
`0.4 * (1 - |d - 6| / 6) + 0.6 * min(q / 3000, 1)`; on the pool
`[{d:6,q:3000},{d:6,q:100},{d:8,q:2500}]` the scores are 1, 21/50 and 23/30,
so the `{d:6,q:3000}` clip scores highest and is selected first, and the
resulting total duration does not exceed 20.5 s. -/
theorem scoring_worked_example :
    scoreClip 6 3000 = 1 ∧ scoreClip 6 100 = 21/50 ∧ scoreClip 8 2500 = 23/30 ∧
    scoreClip 6 100 < scoreClip 6 3000 ∧ scoreClip 8 2500 < scoreClip 6 3000 ∧
    (selectBestClips exampleClips).1.head? =
      some (Candidate.mk 6 3000 (scoreClip 6 3000)) ∧
    (selectBestClips exampleClips).2 ≤ 20.5 := by
  have hsel : selectBestClips exampleClips =
      ([Candidate.mk 6 3000 1, Candidate.mk 8 2500 (23/30), Candidate.mk 6 100 (21/50)], 20) := by
    norm_num [exampleClips, selectBestClips, buildCandidates, List.filterMap_cons, scoreClip,
      MIN_CLIP_DURATION, MAX_CLIP_DURATION,
      sortByScoreDesc, insertByScore, selectGo, TARGET_TOTAL_DURATION, TARGET_CLIP_COUNT]
    simp
  refine ⟨by norm_num [scoreClip], by norm_num [scoreClip], by norm_num [scoreClip],
    by norm_num [scoreClip], by norm_num [scoreClip], ?_, ?_⟩
  · rw [hsel]
    norm_num [scoreClip]
  · rw [hsel]
    norm_num

/-- C8.  Empty-input soft failure: `shape` on an empty interval list returns
the empty sequence, and the clip selection returns the empty selection both
on an empty pool and on a pool in which every clip falls outside the
accepted 3-12 s duration band; none of these is an error. -/
theorem empty_input_soft_failure :
    (∀ gapThresholdS maxDurationS minDurationS : ℚ,
        shape [] gapThresholdS maxDurationS minDurationS = []) ∧
    selectBestClips [] = ([], 0) ∧
    ∀ clips : List Clip,
      (∀ c ∈ clips, c.duration < MIN_CLIP_DURATION ∨ MAX_CLIP_DURATION < c.duration) →
      selectBestClips clips = ([], 0) := by
  refine ⟨fun _ _ _ => rfl, rfl, ?_⟩
  intro clips hall
  have hnil : buildCandidates clips = [] := by
    rw [buildCandidates, List.filterMap_eq_nil]
    intro c hc
    rw [if_pos (hall c hc)]
  rw [selectBestClips, hnil, if_pos rfl]

/-- Witness for C8's unqualifying-pool clause: a 2 s and a 13 s clip are both
outside the 3-12 s band. -/
theorem empty_input_soft_failure_witness :
    selectBestClips [Clip.mk 2 100, Clip.mk 13 5] = ([], 0) :=
  empty_input_soft_failure.2.2 [Clip.mk 2 100, Clip.mk 13 5]
    (by norm_num [MIN_CLIP_DURATION, MAX_CLIP_DURATION])

/-! ## Merge correctness (C2) -/

/-- The merge pass never changes the start of the run the accumulator began:
its output starts with a run whose `start` is the accumulator's `start`. -/
theorem mergeAux_head_start {gapThresholdS maxDurationS : ℚ} :
    ∀ {ts : List Iv} {acc : Iv}, ∃ t l,
      mergeAux gapThresholdS maxDurationS acc ts = t :: l ∧ t.start = acc.start := by
  intro ts
  induction ts with
  | nil => intro acc; exact ⟨acc, [], rfl, rfl⟩
  | cons seg rest ih =>
    intro acc
    rw [mergeAux]
    by_cases hc : seg.start - acc.stop ≤ gapThresholdS ∧ seg.stop - acc.start ≤ maxDurationS
    · rw [if_pos hc]
      obtain ⟨t, l, heq, hstart⟩ := @ih (Iv.mk acc.start seg.stop)
      exact ⟨t, l, heq, hstart⟩
    · rw [if_neg hc]
      exact ⟨acc, _, rfl, rfl⟩

/-- Whenever the merge pass emits two adjacent runs, the boundary between
them is justified: either the gap from the first run's end to the second
run's start exceeds the threshold, or the input interval that begins the
second run ends more than `max_duration_s` after the FIRST RUN's start (the
code measures `combined_duration` from the accumulator's start). -/
theorem mergeAux_boundary {gapThresholdS maxDurationS : ℚ} :
    ∀ {ts : List Iv} {acc : Iv} {u v : List Iv} {R1 R2 : Iv},
      mergeAux gapThresholdS maxDurationS acc ts = u ++ R1 :: R2 :: v →
      gapThresholdS < R2.start - R1.stop ∨
        ∃ j ∈ ts, j.start = R2.start ∧ maxDurationS < j.stop - R1.start := by
  intro ts
  induction ts with
  | nil =>
    intro acc u v R1 R2 h
    rw [mergeAux] at h
    have hlen : (1:Nat) = u.length + (v.length + 2) := by
      simpa [List.length_append] using congrArg List.length h
    omega
  | cons seg rest ih =>
    intro acc u v R1 R2 h
    rw [mergeAux] at h
    by_cases hc : seg.start - acc.stop ≤ gapThresholdS ∧ seg.stop - acc.start ≤ maxDurationS
    · rw [if_pos hc] at h
      rcases ih h with h' | ⟨j, hj, e1, e2⟩
      · exact Or.inl h'
      · exact Or.inr ⟨j, List.mem_cons_of_mem _ hj, e1, e2⟩
    · rw [if_neg hc] at h
      cases u with
      | nil =>
        rw [List.nil_append, List.cons_eq_cons] at h
        obtain ⟨rfl, htail⟩ := h
        obtain ⟨t, l, heq, hstart⟩ :=
          @mergeAux_head_start gapThresholdS maxDurationS rest seg
        rw [heq, List.cons_eq_cons] at htail
        obtain ⟨rfl, -⟩ := htail
        rcases not_and_or.mp hc with h' | h'
        · exact Or.inl (hstart ▸ not_le.mp h')
        · exact Or.inr ⟨seg, List.mem_cons_self _ _, hstart.symm, not_le.mp h'⟩
      | cons a u' =>
        rw [List.cons_append, List.cons_eq_cons] at h
        rcases ih h.2 with h' | ⟨j, hj, e1, e2⟩
        · exact Or.inl h'
        · exact Or.inr ⟨j, List.mem_cons_of_mem _ hj, e1, e2⟩

/-- The input of C2's counterexample: three sorted, touching intervals. -/
def mergeCexIntervals : List Iv := [Iv.mk 0 10, Iv.mk 10 20, Iv.mk 20 31]

/-- The shaping of the counterexample input: the middle interval is merged
into the first run, so the accumulator-based duration cap separates the
second and third intervals. -/
theorem shape_mergeCex :
    shape mergeCexIntervals 1 30 3 = [Iv.mk 0 20, Iv.mk 20 31] := by
  norm_num [mergeCexIntervals, shape, mergeSegments, mergeAux, shapeRun, Iv.duration]

/-- C2 fails as stated: in `[{0,10},{10,20},{20,31}]` with `gap_threshold =
1`, `max_duration = 30`, `min_duration = 3`, the adjacent input intervals
`{10,20}` and `{20,31}` have gap `0 ≤ 1` and combined duration `21 ≤ 30`,
yet no segment of the shaped output contains both: the output is
`[{0,20},{20,31}]`, with a boundary at 20 between them. -/
theorem merge_pair_claim_counterexample :
    (mergeCexIntervals.Pairwise fun a b => a.stop ≤ b.start) ∧
    (Iv.mk 20 31).start - (Iv.mk 10 20).stop ≤ 1 ∧
    (Iv.mk 20 31).stop - (Iv.mk 10 20).start ≤ 30 ∧
    ¬ ∃ R ∈ shape mergeCexIntervals 1 30 3,
        R.start ≤ (Iv.mk 10 20).start ∧ (Iv.mk 20 31).stop ≤ R.stop := by
  refine ⟨by norm_num [mergeCexIntervals, List.pairwise_cons], by norm_num, by norm_num, ?_⟩
  rw [shape_mergeCex]
  rintro ⟨R, hR, h1, h2⟩
  simp only [List.mem_cons, List.not_mem_nil, or_false] at hR
  rcases hR with rfl | rfl
  · norm_num at h2
  · norm_num at h1

/-- C2 amended.  Merge correctness relative to the accumulated run: every
boundary between adjacent output runs is justified — either the gap exceeds
`gap_threshold`, or the input interval beginning the second run ends more
than `max_duration` after the first run's start (the code measures
`combined_duration` from the start of the accumulated run, not from the
first of the two adjacent intervals); and when the first of two adjacent
intervals itself starts the run — as in a two-interval input — gap ≤
`gap_threshold` and pairwise combined duration ≤ `max_duration` do merge
them into one segment with no boundary between them. -/
theorem merge_boundary_justified :
    (∀ (intervals : List Iv) (gapThresholdS maxDurationS : ℚ) (u v : List Iv) (R1 R2 : Iv),
        mergeSegments intervals gapThresholdS maxDurationS = u ++ R1 :: R2 :: v →
        gapThresholdS < R2.start - R1.stop ∨
          ∃ j ∈ intervals, j.start = R2.start ∧ maxDurationS < j.stop - R1.start) ∧
    ∀ (a b : Iv) (gapThresholdS maxDurationS : ℚ),
      b.start - a.stop ≤ gapThresholdS → b.stop - a.start ≤ maxDurationS →
      mergeSegments [a, b] gapThresholdS maxDurationS = [Iv.mk a.start b.stop] := by
  constructor
  · intro intervals thr maxD u v R1 R2 h
    match intervals, h with
    | [], h =>
      rw [mergeSegments] at h
      have hlen : (0:Nat) = u.length + (v.length + 2) := by
        simpa [List.length_append] using congrArg List.length h
      omega
    | first :: rest, h =>
      rw [mergeSegments] at h
      rcases mergeAux_boundary h with h' | ⟨j, hj, e1, e2⟩
      · exact Or.inl h'
      · exact Or.inr ⟨j, List.mem_cons_of_mem _ hj, e1, e2⟩
  · intro a b thr maxD hgap hcomb
    rw [mergeSegments, mergeAux, if_pos ⟨hgap, hcomb⟩, mergeAux]

/-- Witness for C2's amended boundary justification, at the counterexample
input: the boundary between `{0,20}` and `{20,31}` is justified by the
duration cap measured from the run start 0. -/
theorem merge_boundary_justified_witness :
    (1:ℚ) < (Iv.mk 20 31).start - (Iv.mk 0 20).stop ∨
      ∃ j ∈ mergeCexIntervals, j.start = (Iv.mk 20 31).start ∧
        (30:ℚ) < j.stop - (Iv.mk 0 20).start :=
  merge_boundary_justified.1 mergeCexIntervals 1 30 [] [] (Iv.mk 0 20) (Iv.mk 20 31)
    (by norm_num [mergeCexIntervals, mergeSegments, mergeAux])

/-! ## Idempotence of re-shaping (C3) -/

/-- Sorted, non-overlapping, well-formed interval list: the data-model
guarantees of the spec (ordered by start, non-overlapping, `end > start`). -/
def ChainedWf (l : List Iv) : Prop :=
  (l.Pairwise fun a b => a.stop ≤ b.start) ∧ ∀ s ∈ l, s.start < s.stop

/-- The merge pass refuses to extend a run `a` with a following interval or
run `b` exactly when the gap exceeds the threshold or the combined duration
from `a`'s start exceeds the cap. -/
def mergeBlocked (gapThresholdS maxDurationS : ℚ) (a b : Iv) : Prop :=
  gapThresholdS < b.start - a.stop ∨ maxDurationS < b.stop - a.start

/-- Merging the accumulator with the next interval preserves the chain
invariant. -/
theorem chainedWf_merge_step {acc seg : Iv} {rest : List Iv}
    (h : ChainedWf (acc :: seg :: rest)) :
    ChainedWf (Iv.mk acc.start seg.stop :: rest) := by
  obtain ⟨hp, hwf⟩ := h
  rw [List.pairwise_cons] at hp
  obtain ⟨hacc, hp2⟩ := hp
  rw [List.pairwise_cons] at hp2
  obtain ⟨hseg, hp3⟩ := hp2
  refine ⟨List.pairwise_cons.mpr ⟨fun b hb => hseg b hb, hp3⟩, ?_⟩
  intro s hs
  rcases List.mem_cons.mp hs with rfl | hs
  · have h1 : acc.start < acc.stop := hwf acc (List.mem_cons_self _ _)
    have h2 : acc.stop ≤ seg.start := hacc seg (List.mem_cons_self _ _)
    have h3 : seg.start < seg.stop :=
      hwf seg (List.mem_cons_of_mem _ (List.mem_cons_self _ _))
    show acc.start < seg.stop
    linarith
  · exact hwf s (List.mem_cons_of_mem _ (List.mem_cons_of_mem _ hs))

/-- The start of every run emitted by the merge pass is the start of the
initial accumulator or of one of the remaining input intervals. -/
theorem mergeAux_mem_start {gapThresholdS maxDurationS : ℚ} :
    ∀ {ts : List Iv} {acc R : Iv}, R ∈ mergeAux gapThresholdS maxDurationS acc ts →
      R.start = acc.start ∨ ∃ t ∈ ts, R.start = t.start := by
  intro ts
  induction ts with
  | nil =>
    intro acc R h
    rw [mergeAux, List.mem_singleton] at h
    exact Or.inl (h ▸ rfl)
  | cons seg rest ih =>
    intro acc R h
    rw [mergeAux] at h
    by_cases hc : seg.start - acc.stop ≤ gapThresholdS ∧ seg.stop - acc.start ≤ maxDurationS
    · rw [if_pos hc] at h
      rcases ih h with h' | ⟨t, ht, h'⟩
      · exact Or.inl h'
      · exact Or.inr ⟨t, List.mem_cons_of_mem _ ht, h'⟩
    · rw [if_neg hc] at h
      rcases List.mem_cons.mp h with rfl | h'
      · exact Or.inl rfl
      · rcases ih h' with h'' | ⟨t, ht, h''⟩
        · exact Or.inr ⟨seg, List.mem_cons_self _ _, h''⟩
        · exact Or.inr ⟨t, List.mem_cons_of_mem _ ht, h''⟩

/-- On chained input the merge output's first run keeps the accumulator's
start and reaches at least as far as the accumulator's end. -/
theorem mergeAux_head_chained {gapThresholdS maxDurationS : ℚ} :
    ∀ {ts : List Iv} {acc : Iv}, ChainedWf (acc :: ts) →
      ∃ t l, mergeAux gapThresholdS maxDurationS acc ts = t :: l ∧
        t.start = acc.start ∧ acc.stop ≤ t.stop := by
  intro ts
  induction ts with
  | nil => intro acc _; exact ⟨acc, [], rfl, rfl, le_refl _⟩
  | cons seg rest ih =>
    intro acc h
    rw [mergeAux]
    by_cases hc : seg.start - acc.stop ≤ gapThresholdS ∧ seg.stop - acc.start ≤ maxDurationS
    · rw [if_pos hc]
      obtain ⟨t, l, heq, h1, h2⟩ := ih (chainedWf_merge_step h)
      refine ⟨t, l, heq, h1, ?_⟩
      have hstop : acc.stop ≤ seg.start :=
        (List.pairwise_cons.mp h.1).1 seg (List.mem_cons_self _ _)
      have hwf : seg.start < seg.stop :=
        h.2 seg (List.mem_cons_of_mem _ (List.mem_cons_self _ _))
      have : (Iv.mk acc.start seg.stop).stop ≤ t.stop := h2
      simp only at this
      linarith
    · rw [if_neg hc]
      exact ⟨acc, _, rfl, rfl, le_refl _⟩

/-- On chained well-formed input the merge output is again chained and
well-formed. -/
theorem mergeAux_chainedWf {gapThresholdS maxDurationS : ℚ} :
    ∀ {ts : List Iv} {acc : Iv}, ChainedWf (acc :: ts) →
      ChainedWf (mergeAux gapThresholdS maxDurationS acc ts) := by
  intro ts
  induction ts with
  | nil =>
    intro acc h
    rw [mergeAux]
    exact ⟨List.pairwise_singleton _ _, fun s hs =>
      h.2 s (List.mem_singleton.mp hs ▸ List.mem_cons_self _ _)⟩
  | cons seg rest ih =>
    intro acc h
    rw [mergeAux]
    by_cases hc : seg.start - acc.stop ≤ gapThresholdS ∧ seg.stop - acc.start ≤ maxDurationS
    · rw [if_pos hc]
      exact ih (chainedWf_merge_step h)
    · rw [if_neg hc]
      have htail : ChainedWf (seg :: rest) :=
        ⟨(List.pairwise_cons.mp h.1).2, fun s hs => h.2 s (List.mem_cons_of_mem _ hs)⟩
      have ihCW := ih htail
      have hacc : ∀ b ∈ seg :: rest, acc.stop ≤ b.start :=
        (List.pairwise_cons.mp h.1).1
      refine ⟨List.pairwise_cons.mpr ⟨?_, ihCW.1⟩, ?_⟩
      · intro r hr
        rcases mergeAux_mem_start hr with h' | ⟨t, ht, h'⟩
        · rw [h']
          exact hacc seg (List.mem_cons_self _ _)
        · rw [h']
          exact hacc t (List.mem_cons_of_mem _ ht)
      · intro s hs
        rcases List.mem_cons.mp hs with rfl | hs
        · exact h.2 s (List.mem_cons_self _ _)
        · exact ihCW.2 s hs

/-- When the accumulator and every remaining interval respect the duration
cap, so does every run of the merge output: the accumulator is only extended
under the `combined_duration <= max_duration_s` check. -/
theorem mergeAux_duration_le {gapThresholdS maxDurationS : ℚ} :
    ∀ {ts : List Iv} {acc : Iv}, acc.duration ≤ maxDurationS →
      (∀ t ∈ ts, t.duration ≤ maxDurationS) →
      ∀ R ∈ mergeAux gapThresholdS maxDurationS acc ts, R.duration ≤ maxDurationS := by
  intro ts
  induction ts with
  | nil =>
    intro acc hacc _ R hR
    rw [mergeAux, List.mem_singleton] at hR
    exact hR ▸ hacc
  | cons seg rest ih =>
    intro acc hacc hts R hR
    rw [mergeAux] at hR
    by_cases hc : seg.start - acc.stop ≤ gapThresholdS ∧ seg.stop - acc.start ≤ maxDurationS
    · rw [if_pos hc] at hR
      exact ih (by simpa [Iv.duration] using hc.2)
        (fun t ht => hts t (List.mem_cons_of_mem _ ht)) R hR
    · rw [if_neg hc] at hR
      rcases List.mem_cons.mp hR with rfl | hR
      · exact hacc
      · exact ih (hts seg (List.mem_cons_self _ _))
          (fun t ht => hts t (List.mem_cons_of_mem _ ht)) R hR

/-- On chained input, adjacent runs of the merge output are separated for a
reason: each adjacent pair satisfies `mergeBlocked`. -/
theorem mergeAux_chain_blocked {gapThresholdS maxDurationS : ℚ} :
    ∀ {ts : List Iv} {acc : Iv}, ChainedWf (acc :: ts) →
      (mergeAux gapThresholdS maxDurationS acc ts).Chain'
        (mergeBlocked gapThresholdS maxDurationS) := by
  intro ts
  induction ts with
  | nil => intro acc _; rw [mergeAux]; exact List.chain'_singleton _
  | cons seg rest ih =>
    intro acc h
    rw [mergeAux]
    by_cases hc : seg.start - acc.stop ≤ gapThresholdS ∧ seg.stop - acc.start ≤ maxDurationS
    · rw [if_pos hc]
      exact ih (chainedWf_merge_step h)
    · rw [if_neg hc]
      have htail : ChainedWf (seg :: rest) :=
        ⟨(List.pairwise_cons.mp h.1).2, fun s hs => h.2 s (List.mem_cons_of_mem _ hs)⟩
      obtain ⟨t, l, heq, h1, h2⟩ :=
        @mergeAux_head_chained gapThresholdS maxDurationS rest seg htail
      rw [heq]
      rw [List.chain'_cons]
      constructor
      · rcases not_and_or.mp hc with h' | h'
        · exact Or.inl (by rw [h1]; exact not_le.mp h')
        · exact Or.inr (lt_of_lt_of_le (not_le.mp h') (by linarith))
      · rw [← heq]
        exact ih htail

/-- The relation `mergeBlocked` propagates from a run to any later run in a
chained, well-formed list. -/
theorem mergeBlocked_mono {gapThresholdS maxDurationS : ℚ} {a b c : Iv}
    (h : mergeBlocked gapThresholdS maxDurationS a b)
    (hb : b.start < b.stop) (hbc : b.stop ≤ c.start) (hc : c.start < c.stop) :
    mergeBlocked gapThresholdS maxDurationS a c := by
  rcases h with h | h
  · exact Or.inl (by linarith)
  · exact Or.inr (by linarith)

/-- In a chained well-formed list in which every adjacent pair is blocked,
every pair is blocked. -/
theorem pairwise_blocked_of_chain {gapThresholdS maxDurationS : ℚ} :
    ∀ {l : List Iv}, ChainedWf l → l.Chain' (mergeBlocked gapThresholdS maxDurationS) →
      l.Pairwise (mergeBlocked gapThresholdS maxDurationS) := by
  intro l
  induction l with
  | nil => intro _ _; exact List.Pairwise.nil
  | cons a l ih =>
    intro h hch
    have htail : ChainedWf l :=
      ⟨(List.pairwise_cons.mp h.1).2, fun s hs => h.2 s (List.mem_cons_of_mem _ hs)⟩
    refine List.pairwise_cons.mpr ⟨?_, ih htail hch.tail⟩
    intro b hb
    match l, hb with
    | c :: l', hb =>
      have hac : mergeBlocked gapThresholdS maxDurationS a c := (List.chain'_cons.mp hch).1
      rcases List.mem_cons.mp hb with rfl | hb'
      · exact hac
      · have hcwf : c.start < c.stop :=
          htail.2 c (List.mem_cons_self _ _)
        have hcb : c.stop ≤ b.start :=
          (List.pairwise_cons.mp htail.1).1 b hb'
        have hbwf : b.start < b.stop :=
          htail.2 b (List.mem_cons_of_mem _ hb')
        exact mergeBlocked_mono hac hcwf hcb hbwf

/-- The merge pass leaves a list unchanged when every adjacent pair is
blocked. -/
theorem mergeAux_id_of_blocked {gapThresholdS maxDurationS : ℚ} :
    ∀ {ts : List Iv} {acc : Iv},
      (acc :: ts).Chain' (mergeBlocked gapThresholdS maxDurationS) →
      mergeAux gapThresholdS maxDurationS acc ts = acc :: ts := by
  intro ts
  induction ts with
  | nil => intro acc _; rw [mergeAux]
  | cons seg rest ih =>
    intro acc h
    have hblocked : mergeBlocked gapThresholdS maxDurationS acc seg :=
      (List.chain'_cons.mp h).1
    rw [mergeAux, if_neg, ih (List.chain'_cons.mp h).2]
    rintro ⟨h1, h2⟩
    rcases hblocked with h' | h'
    · linarith
    · linarith

/-- Top-level version of `mergeAux_chainedWf`. -/
theorem mergeSegments_chainedWf {gapThresholdS maxDurationS : ℚ} {ts : List Iv}
    (h : ChainedWf ts) : ChainedWf (mergeSegments ts gapThresholdS maxDurationS) := by
  match ts with
  | [] => exact ⟨List.Pairwise.nil, fun s hs => absurd hs (List.not_mem_nil s)⟩
  | first :: rest => exact mergeAux_chainedWf h

/-- Top-level version of `mergeAux_duration_le`. -/
theorem mergeSegments_duration_le {gapThresholdS maxDurationS : ℚ} {ts : List Iv}
    (h : ∀ t ∈ ts, t.duration ≤ maxDurationS) :
    ∀ R ∈ mergeSegments ts gapThresholdS maxDurationS, R.duration ≤ maxDurationS := by
  match ts with
  | [] => exact fun R hR => absurd hR (List.not_mem_nil R)
  | first :: rest =>
    exact mergeAux_duration_le (h first (List.mem_cons_self _ _))
      (fun t ht => h t (List.mem_cons_of_mem _ ht))

/-- Top-level version of `mergeAux_chain_blocked`. -/
theorem mergeSegments_chain_blocked {gapThresholdS maxDurationS : ℚ} {ts : List Iv}
    (h : ChainedWf ts) :
    (mergeSegments ts gapThresholdS maxDurationS).Chain'
      (mergeBlocked gapThresholdS maxDurationS) := by
  match ts with
  | [] => exact List.chain'_nil
  | first :: rest => exact mergeAux_chain_blocked h

/-- Top-level version of `mergeAux_id_of_blocked`. -/
theorem mergeSegments_id_of_blocked {gapThresholdS maxDurationS : ℚ} {l : List Iv}
    (h : l.Chain' (mergeBlocked gapThresholdS maxDurationS)) :
    mergeSegments l gapThresholdS maxDurationS = l := by
  match l with
  | [] => rfl
  | first :: rest => exact mergeAux_id_of_blocked h

/-- When no run exceeds the duration cap, the shaping loop reduces to the
filter that drops runs shorter than `min_discard_s`. -/
theorem flatMap_shapeRun_eq_filter {maxDurationS minDurationS : ℚ} :
    ∀ {runs : List Iv}, (∀ R ∈ runs, R.duration ≤ maxDurationS) →
      runs.flatMap (shapeRun maxDurationS minDurationS) =
        runs.filter fun R => decide (minDurationS ≤ R.duration) := by
  intro runs
  induction runs with
  | nil => intro _; rfl
  | cons R rs ih =>
    intro h
    rw [List.flatMap_cons, List.filter_cons,
      ih fun t ht => h t (List.mem_cons_of_mem _ ht)]
    by_cases h1 : R.duration < minDurationS
    · rw [shapeRun, if_pos h1]
      rw [decide_eq_false (not_le.mpr h1)]
      rfl
    · rw [shapeRun, if_neg h1, if_neg (not_lt.mpr (h R (List.mem_cons_self _ _))),
        decide_eq_true (not_lt.mp h1)]
      rfl

/-- C3 amended.  Idempotence of re-shaping holds on the code's actual
domain: for every sorted, non-overlapping, well-formed input in which no
single interval exceeds `max_duration` (so the split pass never fires),
shaping the shaped output again with the same thresholds returns it
unchanged.  (Without the per-interval cap the claim is false: splitting an
over-long run can leave a short final chunk that re-merges with the next
segment, see the counterexample.) -/
theorem reshape_idempotent_of_bounded (intervals : List Iv)
    (gapThresholdS maxDurationS minDurationS : ℚ)
    (hchain : intervals.Pairwise fun a b => a.stop ≤ b.start)
    (hwf : ∀ s ∈ intervals, s.start < s.stop)
    (hbounded : ∀ s ∈ intervals, s.duration ≤ maxDurationS)
    (hmin : 0 < minDurationS) (hmm : minDurationS ≤ maxDurationS)
    (hgap : 0 ≤ gapThresholdS) :
    shape (shape intervals gapThresholdS maxDurationS minDurationS)
        gapThresholdS maxDurationS minDurationS =
      shape intervals gapThresholdS maxDurationS minDurationS := by
  have hCW : ChainedWf intervals := ⟨hchain, hwf⟩
  have hrunsCW : ChainedWf (mergeSegments intervals gapThresholdS maxDurationS) :=
    mergeSegments_chainedWf hCW
  have hrunsD : ∀ R ∈ mergeSegments intervals gapThresholdS maxDurationS,
      R.duration ≤ maxDurationS := mergeSegments_duration_le hbounded
  have hrunsB : (mergeSegments intervals gapThresholdS maxDurationS).Chain'
      (mergeBlocked gapThresholdS maxDurationS) := mergeSegments_chain_blocked hCW
  have hout_eq : shape intervals gapThresholdS maxDurationS minDurationS =
      (mergeSegments intervals gapThresholdS maxDurationS).filter
        fun R => decide (minDurationS ≤ R.duration) := by
    rw [shape, flatMap_shapeRun_eq_filter hrunsD]
  have houtSub : List.Sublist (shape intervals gapThresholdS maxDurationS minDurationS)
      (mergeSegments intervals gapThresholdS maxDurationS) := by
    rw [hout_eq]; exact List.filter_sublist _
  have houtMem : ∀ s ∈ shape intervals gapThresholdS maxDurationS minDurationS,
      s ∈ mergeSegments intervals gapThresholdS maxDurationS :=
    fun s hs => houtSub.subset hs
  have houtLower : ∀ s ∈ shape intervals gapThresholdS maxDurationS minDurationS,
      minDurationS ≤ s.duration := by
    intro s hs
    rw [hout_eq] at hs
    exact of_decide_eq_true (List.mem_filter.mp hs).2
  have houtUpper : ∀ s ∈ shape intervals gapThresholdS maxDurationS minDurationS,
      s.duration ≤ maxDurationS := fun s hs => hrunsD s (houtMem s hs)
  have houtCW : ChainedWf (shape intervals gapThresholdS maxDurationS minDurationS) :=
    ⟨hrunsCW.1.sublist houtSub, fun s hs => hrunsCW.2 s (houtMem s hs)⟩
  have houtB : (shape intervals gapThresholdS maxDurationS minDurationS).Chain'
      (mergeBlocked gapThresholdS maxDurationS) :=
    ((pairwise_blocked_of_chain hrunsCW hrunsB).sublist houtSub).chain'
  rw [shape, mergeSegments_id_of_blocked houtB, flatMap_shapeRun_eq_filter houtUpper,
    List.filter_eq_self.mpr fun s hs => decide_eq_true (houtLower s hs)]

/-- The input of C3's counterexample: a 36 s interval (over the 30 s cap)
followed, 0.2 s later, by a 3.8 s interval. -/
def reshapeCexIntervals : List Iv := [Iv.mk 0 36, Iv.mk (181/5) 40]

/-- First shaping of the counterexample input: the 36 s run is split into
`{0,30}` and `{30,36}`, the trailing interval is kept as is. -/
theorem shape_reshapeCex :
    shape reshapeCexIntervals (1/2) 30 3 =
      [Iv.mk 0 30, Iv.mk 30 36, Iv.mk (181/5) 40] := by
  have h : (⌈(6:ℚ) / 5⌉ : ℤ) = 2 := by rw [Int.ceil_eq_iff] <;> norm_num
  norm_num [reshapeCexIntervals, shape, mergeSegments, mergeAux, shapeRun, Iv.duration,
    splitSegment, splitFuel, h, splitGo]

/-- Second shaping of the counterexample: the split chunk `{30,36}` now
re-merges with `{36.2,40}` (gap 0.2 ≤ 0.5, combined 10 ≤ 30). -/
theorem shape_shape_reshapeCex :
    shape [Iv.mk 0 30, Iv.mk 30 36, Iv.mk (181/5) 40] (1/2) 30 3 =
      [Iv.mk 0 30, Iv.mk 30 40] := by
  norm_num [shape, mergeSegments, mergeAux, shapeRun, Iv.duration]

/-- C3 fails as stated: on the sorted, non-overlapping, well-formed input
`[{0,36},{36.2,40}]` with `gap_threshold = 0.5`, `max_duration = 30`,
`min_duration = 3`, re-shaping the shaped output changes it: the first pass
gives `[{0,30},{30,36},{36.2,40}]`, the second merges the last two into
`{30,40}`. -/
theorem reshape_not_idempotent_counterexample :
    (reshapeCexIntervals.Pairwise fun a b => a.stop ≤ b.start) ∧
    (∀ s ∈ reshapeCexIntervals, s.start < s.stop) ∧
    shape (shape reshapeCexIntervals (1/2) 30 3) (1/2) 30 3 ≠
      shape reshapeCexIntervals (1/2) 30 3 := by
  refine ⟨by norm_num [reshapeCexIntervals, List.pairwise_cons],
    by norm_num [reshapeCexIntervals], ?_⟩
  rw [shape_reshapeCex, shape_shape_reshapeCex]
  intro h
  have := congrArg List.length h
  simp at this

/-- Witness for the amended C3 at the spec's worked example (all intervals
within the cap). -/
theorem reshape_idempotent_witness :
    shape (shape exampleIntervals (1/2) 30 3) (1/2) 30 3 =
      shape exampleIntervals (1/2) 30 3 :=
  reshape_idempotent_of_bounded exampleIntervals (1/2) 30 3
    (by norm_num [exampleIntervals, List.pairwise_cons])
    (by norm_num [exampleIntervals])
    (by norm_num [exampleIntervals, Iv.duration])
    (by norm_num) (by norm_num) (by norm_num)

end VoiceLayer
